import Mathlib

/-!
Verification of the long-screenshot splitting tool in
src/split_long_image.py.

The embedding is shallow: pixel coordinates are integers (Python's
unbounded ints), channel values are naturals, and luminances and edge
strengths are rationals, giving exact arithmetic for the channel mean and
the absolute-difference sums computed by numpy.  The per-run observable
behaviour (loading, split-point resolution, directory creation, part
writing, fatal errors) is modelled as an ordered event trace.
-/

/-- A decoded raster image: width, height, channel count, and the pixel
buffer; pix x y lists the channel values of the pixel at column x, row y. -/
structure Image where
  width : ℕ
  height : ℕ
  channels : ℕ
  pix : ℕ → ℕ → List ℕ

/-- Fallback image used only as a getD default. -/
def defaultImage : Image := ⟨0, 0, 0, fun _ _ => []⟩

/-- The float64 luminance row np.mean produces from a multi-channel row:
each pixel is averaged over its channel axis (exact rationals model the
float64 means and differences, which are tiny here). -/
def rowLum (img : Image) (y : ℕ) : List ℚ :=
  (List.range img.width).map fun x =>
    ((img.pix x y).sum : ℚ) / (img.channels : ℚ)

/-- The raw single-channel row as the uint8 array stores it: bytes. -/
def rowRaw (img : Image) (y : ℕ) : List ℕ :=
  (List.range img.width).map fun x => (img.pix x y).headD 0 % 256

/-- Sum of absolute differences of adjacent float entries, i.e. np.diff
then np.abs then np.sum on the float row; 0 on rows with fewer than two
entries. -/
def absDiffSum : List ℚ → ℚ
  | [] => 0
  | [_] => 0
  | a :: b :: t => |a - b| + absDiffSum (b :: t)

/-- One step of np.diff on a uint8 row: the subtraction b - a wraps
modulo 2^8, and np.abs on the unsigned result is the identity. -/
def byteDiff (a b : ℕ) : ℕ := (b + 256 - a % 256) % 256

/-- np.diff then np.abs then np.sum on a uint8 row: wrapped byte
differences, summed exactly (the uint64 accumulator np.sum uses cannot
overflow below 2^56 pixels). -/
def byteAbsDiffSum : List ℕ → ℕ
  | [] => 0
  | [_] => 0
  | a :: b :: t => byteDiff a b + byteAbsDiffSum (b :: t)

/-- compute_edge_strength from the source: the one-row crop becomes an
array; a three-dimensional array (at least two channels) is averaged to a
float64 row first and differenced exactly, while a single-channel row
stays uint8, so its differences wrap modulo 2^8. -/
def compute_edge_strength (img : Image) (y : ℕ) : ℚ :=
  if 2 ≤ img.channels then absDiffSum (rowLum img y)
  else (byteAbsDiffSum (rowRaw img y) : ℚ)

/-- Edge strength at an integer row coordinate; every row the search loop
scans is nonnegative, so toNat is exact there. -/
def edgeAt (img : Image) (y : ℤ) : ℚ := compute_edge_strength img y.toNat

/-- start_y = max(0, target_y - search_range). -/
def winStart (target_y search_range : ℤ) : ℤ := max 0 (target_y - search_range)

/-- end_y = min(height, target_y + search_range). -/
def winEnd (img : Image) (target_y search_range : ℤ) : ℤ :=
  min (img.height : ℤ) (target_y + search_range)

/-- The rows visited by `for y in range(start_y, end_y)`. -/
def searchWindow (s e : ℤ) : List ℤ :=
  (List.range (e - s).toNat).map fun k : ℕ => s + (k : ℤ)

/-- The search loop of find_safe_split_point.  The float('inf') initial
minimum is the `none` state: any edge strength is strictly below it, and a
row replaces best_y exactly when its edge strength is strictly below the
minimum seen so far. -/
def fssGo (img : Image) : List ℤ → Option ℚ → ℤ → ℤ
  | [], _, best_y => best_y
  | y :: ys, none, _ => fssGo img ys (some (edgeAt img y)) y
  | y :: ys, some m, best_y =>
    if edgeAt img y < m then fssGo img ys (some (edgeAt img y)) y
    else fssGo img ys (some m) best_y

/-- find_safe_split_point from the source. -/
def find_safe_split_point (img : Image) (target_y search_range : ℤ) : ℤ :=
  fssGo img
    (searchWindow (winStart target_y search_range) (winEnd img target_y search_range))
    none target_y

/-- Module constant MAX_HEIGHT. -/
def MAX_HEIGHT : ℤ := 3200

/-- Module constant SPLIT_HEIGHT. -/
def SPLIT_HEIGHT : ℤ := 3000

/-- Module constant SEARCH_RANGE. -/
def SEARCH_RANGE : ℤ := 100

/-- Module constant OVERLAP. -/
def OVERLAP : ℤ := 50

/-- The four module constants a run reads, bundled so that a run under
edited constants can also be stated. -/
structure Config where
  max_height : ℤ
  split_height : ℤ
  search_range : ℤ
  overlap : ℤ

/-- The constants as shipped in the source file. -/
def defaultConfig : Config := ⟨MAX_HEIGHT, SPLIT_HEIGHT, SEARCH_RANGE, OVERLAP⟩

/-- n_splits = ceil(height / SPLIT_HEIGHT), exact rational ceiling. -/
def n_splits (cfg : Config) (height : ℕ) : ℤ :=
  ⌈(height : ℚ) / ((cfg.split_height : ℤ) : ℚ)⌉

/-- target_split_points = [SPLIT_HEIGHT * i for i in range(1, n_splits)]. -/
def target_split_points (cfg : Config) (height : ℕ) : List ℤ :=
  (List.range' 1 (n_splits cfg height - 1).toNat).map fun i : ℕ => cfg.split_height * (i : ℤ)

/-- actual_split_points: each target resolved by find_safe_split_point. -/
def actual_split_points (cfg : Config) (img : Image) : List ℤ :=
  (target_split_points cfg img.height).map fun t =>
    find_safe_split_point img t cfg.search_range

/-- boundaries = [0] + actual_split_points + [height]. -/
def boundaries (cfg : Config) (img : Image) : List ℤ :=
  0 :: (actual_split_points cfg img ++ [(img.height : ℤ)])

/-- The crop region of output part i, from the three-way branch of the
output loop on a boundary list. -/
def segRange (bnd : List ℤ) (height ov : ℤ) (i : ℕ) : ℤ × ℤ :=
  if i = 0 then (0, min (bnd.getD 1 0 + ov) height)
  else if i = bnd.length - 2 then (max (bnd.getD i 0 - ov) 0, height)
  else (max (bnd.getD i 0 - ov) 0, min (bnd.getD (i + 1) 0 + ov) height)

/-- All crop regions: for i in range(len(boundaries) - 1). -/
def segments (bnd : List ℤ) (height ov : ℤ) : List (ℤ × ℤ) :=
  (List.range (bnd.length - 1)).map (segRange bnd height ov)

/-- The crop regions produced by a run on img. -/
def split_segments (cfg : Config) (img : Image) : List (ℤ × ℤ) :=
  segments (boundaries cfg img) (img.height : ℤ) cfg.overlap

/-- img.crop((0, y_start, width, y_end)): full width, rows
[y_start, y_end); exact for the in-bounds regions the tool produces. -/
def cropRows (img : Image) (y_start y_end : ℤ) : Image :=
  ⟨img.width, (y_end - y_start).toNat, img.channels,
    fun x y => img.pix x (y_start.toNat + y)⟩

/-- The materialized parts of a run. -/
def output_parts (cfg : Config) (img : Image) : List Image :=
  (split_segments cfg img).map fun p => cropRows img p.1 p.2

/-- Generic materialization over an explicit boundary list. -/
def segment_parts (img : Image) (bnd : List ℤ) (height ov : ℤ) : List Image :=
  (segments bnd height ov).map fun p => cropRows img p.1 p.2

/-- split_long_image viewed as data: none when no split is needed (the
early return), otherwise the regions with their cropped images. -/
def split_long_image (cfg : Config) (img : Image) :
    Option (List ((ℤ × ℤ) × Image)) :=
  if (img.height : ℤ) ≤ cfg.max_height then none
  else some ((split_segments cfg img).map fun p => (p, cropRows img p.1 p.2))

/-- Observable steps of a run, in program order. -/
inductive Step where
  | loadImage : Step
  | resolveSplit : ℕ → ℤ → ℤ → Step
  | mkdirOutput : Step
  | writePart : ℕ → ℤ × ℤ → Step
deriving DecidableEq

/-- Filesystem-affecting steps: directory creation and part writes. -/
def isFsStep : Step → Bool
  | Step.mkdirOutput => true
  | Step.writePart _ _ => true
  | _ => false

/-- Split-point resolution steps. -/
def isResolveStep : Step → Bool
  | Step.resolveSplit _ _ _ => true
  | _ => false

/-- The run of split_long_image as an ordered event trace plus a fatal
error: load the image; return after loading if the image is not over-long;
fail at the ceil division if SPLIT_HEIGHT is zero; resolve every split
point in order; create the output directory; write each part in order. -/
def split_run (cfg : Config) (img : Image) : List Step × Option String :=
  if (img.height : ℤ) ≤ cfg.max_height then ([Step.loadImage], none)
  else if cfg.split_height = 0 then ([Step.loadImage], some "ZeroDivisionError")
  else
    (Step.loadImage ::
      (((target_split_points cfg img.height).enum.map fun p =>
        Step.resolveSplit (p.1 + 1) p.2 (find_safe_split_point img p.2 cfg.search_range)) ++
      Step.mkdirOutput ::
        ((split_segments cfg img).enum.map fun p => Step.writePart (p.1 + 1) p.2)),
      none)

/-- Observable equality of images: equal dimensions and channel counts,
and equal pixels on the whole pixel grid. -/
def ImageEquiv (a b : Image) : Prop :=
  a.width = b.width ∧ a.height = b.height ∧ a.channels = b.channels ∧
    ∀ x, x < a.width → ∀ y, y < a.height → a.pix x y = b.pix x y

/-- Modelled on the wording of claim C2: the luminance of a pixel is the
plain arithmetic mean of all its channel values when the image has more
than one channel, and the raw value otherwise. -/
def specLum (img : Image) (x y : ℕ) : ℚ :=
  if 1 < img.channels then
    (List.map (fun c : ℕ => (c : ℚ)) (img.pix x y)).sum / ((img.pix x y).length : ℚ)
  else ((img.pix x y).headD 0 : ℚ)

/-- Modelled on the wording of claim C2: the sum of the absolute
differences of horizontally adjacent luminances of row y. -/
def specEdgeSum (img : Image) (y : ℕ) : ℚ :=
  ((List.range (img.width - 1)).map fun x =>
    |specLum img (x + 1) y - specLum img x y|).sum

/-- A 2-by-5 single-channel image, below the split threshold. -/
def smallImg : Image := ⟨2, 5, 1, fun _ _ => [7]⟩

/-- A 1-by-3601 single-channel image, just above the split threshold. -/
def tallImg : Image := ⟨1, 3601, 1, fun _ _ => [0]⟩

/-- A 2-by-1 single-channel image whose only row is 10 then 5. -/
def grayImg : Image := ⟨2, 1, 1, fun x _ => if x = 0 then [10] else [5]⟩

/-- A 1-by-3600 single-channel image. -/
def cImage : Image := ⟨1, 3600, 1, fun _ _ => [0]⟩

/-- First of two observably equal images with different pixel functions. -/
def imgA : Image := ⟨2, 3, 1, fun x y => [x + 2 * y]⟩

/-- Second of two observably equal images with different pixel functions. -/
def imgB : Image := ⟨2, 3, 1, fun x y => if x < 2 ∧ y < 3 then [x + 2 * y] else [99]⟩

/-- The shipped constants with SPLIT_HEIGHT edited to zero. -/
def zeroConfig : Config := ⟨3200, 0, 100, 50⟩

/-- The shipped constants with SPLIT_HEIGHT edited to a negative value. -/
def negConfig : Config := ⟨3200, -1, 100, 50⟩

lemma getD_mem_of_lt {α : Type} (l : List α) (i : ℕ) (d : α) (h : i < l.length) :
    l.getD i d ∈ l := by
  rw [List.getD_eq_getElem l d h]
  exact List.getElem_mem h

lemma fssGo_mem (img : Image) (ys : List ℤ) :
    ∀ m b, fssGo img ys m b = b ∨ fssGo img ys m b ∈ ys := by
  induction ys with
  | nil => intro m b; left; cases m <;> rfl
  | cons y ys ih =>
    intro m b
    cases m with
    | none =>
      rcases ih (some (edgeAt img y)) y with h | h
      · right; rw [show fssGo img (y :: ys) none b = fssGo img ys (some (edgeAt img y)) y
          from rfl, h]
        exact List.mem_cons_self y ys
      · right
        rw [show fssGo img (y :: ys) none b = fssGo img ys (some (edgeAt img y)) y from rfl]
        exact List.mem_cons_of_mem y h
    | some m =>
      rw [show fssGo img (y :: ys) (some m) b =
        (if edgeAt img y < m then fssGo img ys (some (edgeAt img y)) y
          else fssGo img ys (some m) b) from rfl]
      by_cases hlt : edgeAt img y < m
      · rw [if_pos hlt]
        rcases ih (some (edgeAt img y)) y with h | h
        · right; rw [h]; exact List.mem_cons_self y ys
        · right; exact List.mem_cons_of_mem y h
      · rw [if_neg hlt]
        rcases ih (some m) b with h | h
        · left; exact h
        · right; exact List.mem_cons_of_mem y h

lemma fssGo_spec (img : Image) (ys : List ℤ) :
    ∀ b : ℤ, List.Pairwise (· < ·) ys → (∀ y ∈ ys, b < y) →
      (fssGo img ys (some (edgeAt img b)) b = b ∨
        fssGo img ys (some (edgeAt img b)) b ∈ ys) ∧
      edgeAt img (fssGo img ys (some (edgeAt img b)) b) ≤ edgeAt img b ∧
      (∀ y ∈ ys, edgeAt img (fssGo img ys (some (edgeAt img b)) b) ≤ edgeAt img y) ∧
      (∀ y, (y = b ∨ y ∈ ys) →
        edgeAt img y = edgeAt img (fssGo img ys (some (edgeAt img b)) b) →
        fssGo img ys (some (edgeAt img b)) b ≤ y) := by
  induction ys with
  | nil =>
    intro b _ _
    refine ⟨Or.inl rfl, le_refl _, ?_, ?_⟩
    · intro y hy; exact absurd hy (List.not_mem_nil y)
    · intro y hy _
      rcases hy with h | h
      · subst h; exact le_refl _
      · exact absurd h (List.not_mem_nil y)
  | cons y ys ih =>
    intro b hp hb
    obtain ⟨hy_lt, hp'⟩ := List.pairwise_cons.mp hp
    by_cases he : edgeAt img y < edgeAt img b
    · have hred : fssGo img (y :: ys) (some (edgeAt img b)) b =
        fssGo img ys (some (edgeAt img y)) y := by
        rw [show fssGo img (y :: ys) (some (edgeAt img b)) b =
          (if edgeAt img y < edgeAt img b then fssGo img ys (some (edgeAt img y)) y
            else fssGo img ys (some (edgeAt img b)) b) from rfl, if_pos he]
      obtain ⟨ih1, ih2, ih3, ih4⟩ := ih y hp' hy_lt
      rw [hred]
      refine ⟨?_, ?_, ?_, ?_⟩
      · rcases ih1 with h | h
        · right; rw [h]; exact List.mem_cons_self y ys
        · right; exact List.mem_cons_of_mem y h
      · exact le_of_lt (lt_of_le_of_lt ih2 he)
      · intro z hz
        rcases List.mem_cons.mp hz with h | h
        · rw [h]; exact ih2
        · exact ih3 z h
      · intro z hz hze
        rcases hz with h | h
        · exfalso
          have h1 : edgeAt img (fssGo img ys (some (edgeAt img y)) y) < edgeAt img b :=
            lt_of_le_of_lt ih2 he
          rw [← hze, h] at h1
          exact lt_irrefl _ h1
        · rcases List.mem_cons.mp h with h2 | h2
          · exact ih4 z (Or.inl h2) hze
          · exact ih4 z (Or.inr h2) hze
    · have hred : fssGo img (y :: ys) (some (edgeAt img b)) b =
        fssGo img ys (some (edgeAt img b)) b := by
        rw [show fssGo img (y :: ys) (some (edgeAt img b)) b =
          (if edgeAt img y < edgeAt img b then fssGo img ys (some (edgeAt img y)) y
            else fssGo img ys (some (edgeAt img b)) b) from rfl, if_neg he]
      have hb' : ∀ z ∈ ys, b < z := fun z hz => hb z (List.mem_cons_of_mem y hz)
      obtain ⟨ih1, ih2, ih3, ih4⟩ := ih b hp' hb'
      rw [hred]
      push_neg at he
      refine ⟨?_, ih2, ?_, ?_⟩
      · rcases ih1 with h | h
        · left; exact h
        · right; exact List.mem_cons_of_mem y h
      · intro z hz
        rcases List.mem_cons.mp hz with h | h
        · rw [h]; exact le_trans ih2 he
        · exact ih3 z h
      · intro z hz hze
        rcases hz with h | h
        · exact ih4 z (Or.inl h) hze
        · rcases List.mem_cons.mp h with h2 | h2
          · have hyr : edgeAt img y = edgeAt img (fssGo img ys (some (edgeAt img b)) b) := by
              rw [← h2]; exact hze
            have heq : edgeAt img b = edgeAt img (fssGo img ys (some (edgeAt img b)) b) :=
              le_antisymm (le_trans he (le_of_eq hyr)) ih2
            have hrb := ih4 b (Or.inl rfl) heq
            have hby : b < z := by rw [h2]; exact hb y (List.mem_cons_self y ys)
            exact le_of_lt (lt_of_le_of_lt hrb hby)
          · exact ih4 z (Or.inr h2) hze

lemma searchWindow_mem (s e z : ℤ) (hz : z ∈ searchWindow s e) : s ≤ z ∧ z < e := by
  unfold searchWindow at hz
  obtain ⟨k, hk, rfl⟩ := List.mem_map.mp hz
  rw [List.mem_range] at hk
  omega

lemma searchWindow_mem_of (s e z : ℤ) (h1 : s ≤ z) (h2 : z < e) :
    z ∈ searchWindow s e := by
  unfold searchWindow
  refine List.mem_map.mpr ⟨(z - s).toNat, ?_, by omega⟩
  rw [List.mem_range]
  omega

lemma searchWindow_pairwise (s e : ℤ) : List.Pairwise (· < ·) (searchWindow s e) := by
  unfold searchWindow
  rw [List.pairwise_map]
  exact (List.pairwise_lt_range _).imp fun h => by omega

lemma searchWindow_empty (s e : ℤ) (h : e ≤ s) : searchWindow s e = [] := by
  unfold searchWindow
  rw [Int.toNat_of_nonpos (by omega), List.range_zero, List.map_nil]

lemma searchWindow_ne_nil (s e : ℤ) (h : s < e) : searchWindow s e ≠ [] := by
  intro hnil
  have : s ∈ searchWindow s e := searchWindow_mem_of s e s (le_refl s) h
  rw [hnil] at this
  exact List.not_mem_nil s this

lemma find_safe_empty (img : Image) (ty sr : ℤ)
    (h : winEnd img ty sr ≤ winStart ty sr) :
    find_safe_split_point img ty sr = ty := by
  unfold find_safe_split_point
  rw [searchWindow_empty _ _ h]
  rfl

lemma find_safe_nonempty (img : Image) (ty sr : ℤ)
    (h : winStart ty sr < winEnd img ty sr) :
    (winStart ty sr ≤ find_safe_split_point img ty sr ∧
      find_safe_split_point img ty sr < winEnd img ty sr) ∧
    (∀ y : ℤ, winStart ty sr ≤ y → y < winEnd img ty sr →
      edgeAt img (find_safe_split_point img ty sr) ≤ edgeAt img y) ∧
    (∀ y : ℤ, winStart ty sr ≤ y → y < winEnd img ty sr →
      edgeAt img y = edgeAt img (find_safe_split_point img ty sr) →
      find_safe_split_point img ty sr ≤ y) := by
  obtain ⟨y0, ys, hw⟩ :=
    List.exists_cons_of_ne_nil (searchWindow_ne_nil (winStart ty sr) (winEnd img ty sr) h)
  have hpw := searchWindow_pairwise (winStart ty sr) (winEnd img ty sr)
  rw [hw] at hpw
  obtain ⟨hy0_lt, hp'⟩ := List.pairwise_cons.mp hpw
  have hred : find_safe_split_point img ty sr =
      fssGo img ys (some (edgeAt img y0)) y0 := by
    unfold find_safe_split_point
    rw [hw]
    rfl
  obtain ⟨s1, s2, s3, s4⟩ := fssGo_spec img ys y0 hp' hy0_lt
  have hmemw : find_safe_split_point img ty sr ∈
      searchWindow (winStart ty sr) (winEnd img ty sr) := by
    rw [hw, hred]
    rcases s1 with hh | hh
    · rw [hh]; exact List.mem_cons_self y0 ys
    · exact List.mem_cons_of_mem y0 hh
  have hmem := searchWindow_mem _ _ _ hmemw
  refine ⟨hmem, ?_, ?_⟩
  · intro y hy1 hy2
    have hyw : y ∈ searchWindow (winStart ty sr) (winEnd img ty sr) :=
      searchWindow_mem_of _ _ y hy1 hy2
    rw [hw] at hyw
    rw [hred]
    rcases List.mem_cons.mp hyw with hh | hh
    · rw [hh]; exact s2
    · exact s3 y hh
  · intro y hy1 hy2 hye
    have hyw : y ∈ searchWindow (winStart ty sr) (winEnd img ty sr) :=
      searchWindow_mem_of _ _ y hy1 hy2
    rw [hw] at hyw
    rw [hred]
    rw [hred] at hye
    rcases List.mem_cons.mp hyw with hh | hh
    · exact s4 y (Or.inl hh) hye
    · exact s4 y (Or.inr hh) hye

/-- C1: find_safe_split_point returns, for every image and target row, the
row of the window [max(0, target_y - search_range),
min(height, target_y + search_range)) whose edge strength is at most that
of every other row of the window, the smallest such row when several rows
tie (scan in increasing y with strict less-than), and target_y itself when
the window is empty. -/
theorem find_safe_split_point_is_first_min (img : Image) (target_y search_range : ℤ) :
    (winEnd img target_y search_range ≤ winStart target_y search_range →
      find_safe_split_point img target_y search_range = target_y) ∧
    (winStart target_y search_range < winEnd img target_y search_range →
      (winStart target_y search_range ≤ find_safe_split_point img target_y search_range ∧
        find_safe_split_point img target_y search_range < winEnd img target_y search_range) ∧
      (∀ y : ℤ, winStart target_y search_range ≤ y → y < winEnd img target_y search_range →
        edgeAt img (find_safe_split_point img target_y search_range) ≤ edgeAt img y) ∧
      (∀ y : ℤ, winStart target_y search_range ≤ y → y < winEnd img target_y search_range →
        edgeAt img y = edgeAt img (find_safe_split_point img target_y search_range) →
        find_safe_split_point img target_y search_range ≤ y)) :=
  ⟨find_safe_empty img target_y search_range,
    find_safe_nonempty img target_y search_range⟩

theorem find_safe_split_point_is_first_min_witness :
    (winStart 2 1 < winEnd smallImg 2 1 ∧
      (winStart 2 1 ≤ find_safe_split_point smallImg 2 1 ∧
        find_safe_split_point smallImg 2 1 < winEnd smallImg 2 1)) ∧
    (winEnd smallImg 9 1 ≤ winStart 9 1 ∧ find_safe_split_point smallImg 9 1 = 9) :=
  ⟨⟨by decide, ((find_safe_split_point_is_first_min smallImg 2 1).2 (by decide)).1⟩,
    ⟨by decide, (find_safe_split_point_is_first_min smallImg 9 1).1 (by decide)⟩⟩

/-- C6: the resolved split point always lies within search_range of the
target row: target_y - search_range ≤ actual_y ≤ target_y + search_range,
for every image, every target row and every nonnegative search_range,
including the empty-window case where actual_y = target_y. -/
theorem find_safe_split_point_window_bound (img : Image) (target_y search_range : ℤ)
    (h : 0 ≤ search_range) :
    target_y - search_range ≤ find_safe_split_point img target_y search_range ∧
      find_safe_split_point img target_y search_range ≤ target_y + search_range := by
  rcases fssGo_mem img
      (searchWindow (winStart target_y search_range) (winEnd img target_y search_range))
      none target_y with hh | hh
  · unfold find_safe_split_point
    rw [hh]
    omega
  · obtain ⟨h1, h2⟩ := searchWindow_mem _ _ _ hh
    constructor
    · have h3 : target_y - search_range ≤ winStart target_y search_range :=
        le_max_right _ _
      exact le_trans h3 h1
    · have h4 : winEnd img target_y search_range ≤ target_y + search_range :=
        min_le_right _ _
      exact le_of_lt (lt_of_lt_of_le h2 h4)

theorem find_safe_split_point_window_bound_witness :
    (0 : ℤ) ≤ 1 ∧
      ((2 : ℤ) - 1 ≤ find_safe_split_point smallImg 2 1 ∧
        find_safe_split_point smallImg 2 1 ≤ 2 + 1) :=
  ⟨by decide, find_safe_split_point_window_bound smallImg 2 1 (by decide)⟩

/-- C2 (code bug): on single-channel rows compute_edge_strength does not
compute the claimed sum of absolute luminance differences: np.diff runs on
the raw uint8 row, so each difference wraps modulo 2^8 and np.abs leaves
the unsigned result unchanged.  The grayscale row 10, 5 scores 251 in the
code where the claimed absolute-difference sum is 5. -/
theorem compute_edge_strength_uint8_wrap :
    compute_edge_strength grayImg 0 = 251 ∧
    specEdgeSum grayImg 0 = 5 ∧
    compute_edge_strength grayImg 0 ≠ specEdgeSum grayImg 0 := by
  have h1 : compute_edge_strength grayImg 0 = 251 := by
    unfold compute_edge_strength
    rw [if_neg (by decide), show byteAbsDiffSum (rowRaw grayImg 0) = 251 from by decide]
    norm_num
  have h2 : specEdgeSum grayImg 0 = 5 := by
    unfold specEdgeSum specLum
    norm_num [grayImg, List.range_succ]
  exact ⟨h1, h2, by rw [h1, h2]; norm_num⟩

lemma segments_length (bnd : List ℤ) (height ov : ℤ) :
    (segments bnd height ov).length = bnd.length - 1 := by
  simp [segments]

lemma segments_getD (bnd : List ℤ) (height ov : ℤ) (i : ℕ) (h : i < bnd.length - 1) :
    (segments bnd height ov).getD i (0, 0) = segRange bnd height ov i := by
  unfold segments
  rw [List.getD_eq_getElem _ _ (by simpa using h)]
  simp

lemma boundaries_length (cfg : Config) (img : Image) :
    (boundaries cfg img).length = (actual_split_points cfg img).length + 2 := by
  simp [boundaries]

lemma boundaries_getD_succ (cfg : Config) (img : Image) (j : ℕ)
    (h : j < (actual_split_points cfg img).length) :
    (boundaries cfg img).getD (j + 1) 0 = (actual_split_points cfg img).getD j 0 := by
  unfold boundaries
  rw [List.getD_cons_succ]
  exact List.getD_append _ _ _ _ h

lemma targets_length (cfg : Config) (height : ℕ) :
    (target_split_points cfg height).length = (n_splits cfg height - 1).toNat := by
  simp [target_split_points]

lemma acts_length (cfg : Config) (img : Image) :
    (actual_split_points cfg img).length = (n_splits cfg img.height - 1).toNat := by
  simp [actual_split_points, targets_length]

lemma n_splits_default_eq (height : ℕ) :
    n_splits defaultConfig height = ⌈(height : ℚ) / 3000⌉ := by
  unfold n_splits defaultConfig SPLIT_HEIGHT
  norm_num

lemma height_le_mul (height : ℕ) :
    (height : ℤ) ≤ 3000 * n_splits defaultConfig height := by
  have h1 : ((height : ℚ)) / 3000 ≤ ((n_splits defaultConfig height : ℤ) : ℚ) := by
    rw [n_splits_default_eq]
    exact Int.le_ceil _
  rw [div_le_iff₀ (by norm_num : (0 : ℚ) < 3000)] at h1
  have h2 : ((height : ℚ)) ≤ ((3000 * n_splits defaultConfig height : ℤ) : ℚ) := by
    push_cast
    linarith
  exact_mod_cast h2

lemma mul_pred_lt_height (height : ℕ) :
    3000 * (n_splits defaultConfig height - 1) < (height : ℤ) := by
  have h1 : ((n_splits defaultConfig height - 1 : ℤ) : ℚ) < ((height : ℚ)) / 3000 := by
    rw [n_splits_default_eq]
    exact Int.lt_ceil.mp (by rw [← n_splits_default_eq]; omega)
  rw [lt_div_iff₀ (by norm_num : (0 : ℚ) < 3000)] at h1
  push_cast at h1
  have h2 : ((3000 * (n_splits defaultConfig height - 1) : ℤ) : ℚ) < ((height : ℚ)) := by
    push_cast
    linarith
  exact_mod_cast h2

lemma n_splits_ge_two (height : ℕ) (h : 3200 < height) :
    2 ≤ n_splits defaultConfig height := by
  have h1 := height_le_mul height
  omega

lemma target_mem_bounds (height : ℕ) (t : ℤ)
    (ht : t ∈ target_split_points defaultConfig height) :
    3000 ≤ t ∧ t < (height : ℤ) := by
  unfold target_split_points at ht
  obtain ⟨i, hi, rfl⟩ := List.mem_map.mp ht
  rw [List.mem_range'_1] at hi
  have hb := mul_pred_lt_height height
  rw [show defaultConfig.split_height = (3000 : ℤ) from rfl]
  omega

lemma actual_mem_bounds (img : Image) (a : ℤ)
    (ha : a ∈ actual_split_points defaultConfig img) :
    0 ≤ a ∧ a < (img.height : ℤ) := by
  unfold actual_split_points at ha
  obtain ⟨t, ht, rfl⟩ := List.mem_map.mp ha
  obtain ⟨ht1, ht2⟩ := target_mem_bounds img.height t ht
  rw [show defaultConfig.search_range = (100 : ℤ) from rfl]
  have hw : winStart t 100 < winEnd img t 100 := by
    unfold winStart winEnd
    refine max_lt (lt_min_iff.mpr ⟨by omega, by omega⟩) (lt_min_iff.mpr ⟨by omega, by omega⟩)
  obtain ⟨⟨h1, h2⟩, _, _⟩ := find_safe_nonempty img t 100 hw
  constructor
  · exact le_trans (le_max_left _ _) h1
  · exact lt_of_lt_of_le h2 (min_le_left _ _)

lemma segRange_fst_pos (bnd : List ℤ) (height ov : ℤ) (i : ℕ) (h : i ≠ 0) :
    (segRange bnd height ov i).1 = max (bnd.getD i 0 - ov) 0 := by
  unfold segRange
  rw [if_neg h]
  split <;> rfl

lemma segRange_snd_mid (bnd : List ℤ) (height ov : ℤ) (i : ℕ)
    (h : i ≠ bnd.length - 2) :
    (segRange bnd height ov i).2 = min (bnd.getD (i + 1) 0 + ov) height := by
  unfold segRange
  by_cases h0 : i = 0
  · rw [if_pos h0, h0]
  · rw [if_neg h0, if_neg h]

lemma segRange_bounds (bnd : List ℤ) (height ov : ℤ) (i : ℕ) :
    0 ≤ (segRange bnd height ov i).1 ∧ (segRange bnd height ov i).2 ≤ height := by
  unfold segRange
  split
  · exact ⟨le_refl 0, min_le_right _ _⟩
  · split
    · exact ⟨le_max_right _ _, le_refl height⟩
    · exact ⟨le_max_right _ _, min_le_right _ _⟩

lemma exists_greatest_below (P : ℕ → Prop) [DecidablePred P] (n : ℕ) (h0 : P 0) :
    ∃ i, i ≤ n ∧ P i ∧ ∀ k, i < k → k ≤ n → ¬ P k :=
  ⟨Nat.findGreatest P n, Nat.findGreatest_le n, Nat.findGreatest_spec (Nat.zero_le n) h0,
    fun k hk1 hk2 => Nat.findGreatest_is_greatest hk1 hk2⟩

lemma chain_cover (segs : List (ℤ × ℤ)) (height : ℤ) (hne : 0 < segs.length)
    (h0 : (segs.getD 0 (0, 0)).1 = 0)
    (hlast : (segs.getD (segs.length - 1) (0, 0)).2 = height)
    (hchain : ∀ i, i + 1 < segs.length →
      (segs.getD (i + 1) (0, 0)).1 ≤ (segs.getD i (0, 0)).2)
    (hbound : ∀ i, i < segs.length →
      0 ≤ (segs.getD i (0, 0)).1 ∧ (segs.getD i (0, 0)).2 ≤ height)
    (y : ℤ) :
    (∃ p ∈ segs, p.1 ≤ y ∧ y < p.2) ↔ (0 ≤ y ∧ y < height) := by
  constructor
  · rintro ⟨p, hp, hp1, hp2⟩
    obtain ⟨i, hi, rfl⟩ := List.getElem_of_mem hp
    have hb := hbound i hi
    rw [List.getD_eq_getElem _ _ hi] at hb
    exact ⟨le_trans hb.1 hp1, lt_of_lt_of_le hp2 hb.2⟩
  · rintro ⟨hy0, hyh⟩
    have hP0 : (segs.getD 0 (0, 0)).1 ≤ y := by rw [h0]; exact hy0
    obtain ⟨i, hile, hPi, hgt⟩ :=
      exists_greatest_below (fun j => (segs.getD j (0, 0)).1 ≤ y) (segs.length - 1) hP0
    have himem : segs.getD i (0, 0) ∈ segs := getD_mem_of_lt segs i (0, 0) (by omega)
    by_cases hl : i = segs.length - 1
    · refine ⟨segs.getD i (0, 0), himem, hPi, ?_⟩
      rw [hl, hlast]
      exact hyh
    · have hnext := hgt (i + 1) (by omega) (by omega)
      have hc := hchain i (by omega)
      refine ⟨segs.getD i (0, 0), himem, hPi, ?_⟩
      omega

lemma split_chain (img : Image) (i : ℕ)
    (h : i + 1 < (split_segments defaultConfig img).length) :
    ((split_segments defaultConfig img).getD (i + 1) (0, 0)).1 ≤
      ((split_segments defaultConfig img).getD i (0, 0)).2 := by
  have hbl := boundaries_length defaultConfig img
  have hsl : (split_segments defaultConfig img).length =
      (actual_split_points defaultConfig img).length + 1 := by
    unfold split_segments
    rw [segments_length, hbl]
    omega
  rw [hsl] at h
  unfold split_segments
  rw [segments_getD _ _ _ (i + 1) (by omega), segments_getD _ _ _ i (by omega)]
  rw [segRange_fst_pos _ _ _ (i + 1) (by omega)]
  rw [segRange_snd_mid _ _ _ i (by omega)]
  have hb := boundaries_getD_succ defaultConfig img i (by omega)
  rw [hb]
  have hmem : (actual_split_points defaultConfig img).getD i 0 ∈
      actual_split_points defaultConfig img :=
    getD_mem_of_lt _ i 0 (by omega)
  obtain ⟨ha1, ha2⟩ := actual_mem_bounds img _ hmem
  rw [show defaultConfig.overlap = (50 : ℤ) from rfl]
  rw [max_le_iff, le_min_iff, le_min_iff]
  omega

lemma split_seg_first (img : Image) :
    ((split_segments defaultConfig img).getD 0 (0, 0)).1 = 0 := by
  have hbl := boundaries_length defaultConfig img
  unfold split_segments
  rw [segments_getD _ _ _ 0 (by omega)]
  unfold segRange
  rw [if_pos rfl]

lemma split_seg_last (img : Image) (h : 3200 < img.height) :
    ((split_segments defaultConfig img).getD
      ((split_segments defaultConfig img).length - 1) (0, 0)).2 = (img.height : ℤ) := by
  have hbl := boundaries_length defaultConfig img
  have hn := n_splits_ge_two img.height h
  have hal := acts_length defaultConfig img
  have hsl : (split_segments defaultConfig img).length =
      (actual_split_points defaultConfig img).length + 1 := by
    unfold split_segments
    rw [segments_length, hbl]
    omega
  rw [hsl]
  unfold split_segments
  rw [segments_getD _ _ _ _ (by omega)]
  unfold segRange
  rw [if_neg (by omega), if_pos (by omega)]

lemma split_seg_bounds (img : Image) (i : ℕ)
    (hi : i < (split_segments defaultConfig img).length) :
    0 ≤ ((split_segments defaultConfig img).getD i (0, 0)).1 ∧
      ((split_segments defaultConfig img).getD i (0, 0)).2 ≤ (img.height : ℤ) := by
  have hbl := boundaries_length defaultConfig img
  have hsl : (split_segments defaultConfig img).length =
      (actual_split_points defaultConfig img).length + 1 := by
    unfold split_segments
    rw [segments_length, hbl]
    omega
  unfold split_segments
  rw [segments_getD _ _ _ i (by omega)]
  exact segRange_bounds _ _ _ i

/-- C3: for every image whose height exceeds max_height, under the default
configuration the produced segments tile [0, height) exactly: the first
segment starts at row 0, the last ends at the height, consecutive segments
abut or overlap, and the union of the half-open ranges [y_start, y_end) is
exactly [0, height). -/
theorem split_segments_cover (img : Image) (h : defaultConfig.max_height < (img.height : ℤ)) :
    ((split_segments defaultConfig img).getD 0 (0, 0)).1 = 0 ∧
    ((split_segments defaultConfig img).getD
      ((split_segments defaultConfig img).length - 1) (0, 0)).2 = (img.height : ℤ) ∧
    (∀ i, i + 1 < (split_segments defaultConfig img).length →
      ((split_segments defaultConfig img).getD (i + 1) (0, 0)).1 ≤
        ((split_segments defaultConfig img).getD i (0, 0)).2) ∧
    ∀ y : ℤ, (∃ p ∈ split_segments defaultConfig img, p.1 ≤ y ∧ y < p.2) ↔
      (0 ≤ y ∧ y < (img.height : ℤ)) := by
  have hh : 3200 < img.height := by
    rw [show defaultConfig.max_height = (3200 : ℤ) from rfl] at h
    exact_mod_cast h
  have hbl := boundaries_length defaultConfig img
  have hsl : (split_segments defaultConfig img).length =
      (actual_split_points defaultConfig img).length + 1 := by
    unfold split_segments
    rw [segments_length, hbl]
    omega
  refine ⟨split_seg_first img, split_seg_last img hh, split_chain img, ?_⟩
  intro y
  exact chain_cover (split_segments defaultConfig img) (img.height : ℤ)
    (by omega) (split_seg_first img) (split_seg_last img hh) (split_chain img)
    (split_seg_bounds img) y

theorem split_segments_cover_witness :
    defaultConfig.max_height < (tallImg.height : ℤ) ∧
      ((∃ p ∈ split_segments defaultConfig tallImg, p.1 ≤ 100 ∧ (100 : ℤ) < p.2) ↔
        (0 ≤ (100 : ℤ) ∧ (100 : ℤ) < (tallImg.height : ℤ))) :=
  ⟨by decide, (split_segments_cover tallImg (by decide)).2.2.2 100⟩

/-- C4: for every image taller than max_height, the default-configuration
split produces exactly ceil(height / split_height) segments, derived from
exactly ceil(height / split_height) - 1 target rows at split_height * i for
i = 1 .. n-1, each resolved independently by find_safe_split_point against
multiples of the original height. -/
theorem split_segments_count (img : Image) (h : defaultConfig.max_height < (img.height : ℤ)) :
    (split_segments defaultConfig img).length = (n_splits defaultConfig img.height).toNat ∧
    n_splits defaultConfig img.height = ⌈(img.height : ℚ) / 3000⌉ ∧
    target_split_points defaultConfig img.height =
      (List.range' 1 (n_splits defaultConfig img.height - 1).toNat).map
        (fun i : ℕ => 3000 * (i : ℤ)) ∧
    (target_split_points defaultConfig img.height).length =
      (n_splits defaultConfig img.height - 1).toNat ∧
    actual_split_points defaultConfig img =
      (target_split_points defaultConfig img.height).map
        (fun t => find_safe_split_point img t 100) := by
  have hh : 3200 < img.height := by
    rw [show defaultConfig.max_height = (3200 : ℤ) from rfl] at h
    exact_mod_cast h
  have hn := n_splits_ge_two img.height hh
  have hbl := boundaries_length defaultConfig img
  have hal := acts_length defaultConfig img
  refine ⟨?_, n_splits_default_eq img.height, rfl, targets_length _ _, rfl⟩
  unfold split_segments
  rw [segments_length, hbl, hal]
  omega

theorem split_segments_count_witness :
    defaultConfig.max_height < (tallImg.height : ℤ) ∧
      (split_segments defaultConfig tallImg).length =
        (n_splits defaultConfig tallImg.height).toNat :=
  ⟨by decide, (split_segments_count tallImg (by decide)).1⟩

lemma genb_getD_one (mid : List ℤ) (hz : ℤ) :
    ((0 : ℤ) :: (mid ++ [hz])).getD 1 0 = mid.getD 0 hz := by
  cases mid <;> rfl

lemma genb_getD_succ (mid : List ℤ) (hz : ℤ) (j : ℕ) (h : j < mid.length) :
    ((0 : ℤ) :: (mid ++ [hz])).getD (j + 1) 0 = mid.getD j 0 := by
  rw [List.getD_cons_succ]
  exact List.getD_append _ _ _ _ h

lemma genb_getD_last (mid : List ℤ) (hz : ℤ) :
    ((0 : ℤ) :: (mid ++ [hz])).getD (mid.length + 1) 0 = hz := by
  rw [List.getD_cons_succ]
  rw [List.getD_eq_getElem _ _ (by simp)]
  simp

lemma genb_length (mid : List ℤ) (hz : ℤ) :
    ((0 : ℤ) :: (mid ++ [hz])).length = mid.length + 2 := by
  simp

lemma segment_parts_getD (img : Image) (bnd : List ℤ) (height ov : ℤ) (i : ℕ)
    (h : i < bnd.length - 1) :
    (segment_parts img bnd height ov).getD i defaultImage =
      cropRows img ((segments bnd height ov).getD i (0, 0)).1
        ((segments bnd height ov).getD i (0, 0)).2 := by
  unfold segment_parts
  have hlen : i < (segments bnd height ov).length := by rw [segments_length]; omega
  rw [List.getD_eq_getElem _ _ (by simpa using hlen), List.getElem_map,
    List.getD_eq_getElem _ _ hlen]

/-- C5: on a boundary sequence [0, a_1, ..., a_(n-1), H] with overlap at
least 0, the segmenter yields segment 1 from 0 to min(a_1 + overlap, H),
the last segment from max(a_(n-1) - overlap, 0) to H, and every middle
segment i from max(a_(i-1) - overlap, 0) to min(a_i + overlap, H); each is
materialized as a crop of the original image over the full width, with
rows shifted by y_start. -/
theorem segmenter_ranges (img : Image) (mid : List ℤ) (hz ov : ℤ) (hov : 0 ≤ ov)
    (i : ℕ) (hi : i < mid.length + 1) :
    (segments ((0 : ℤ) :: (mid ++ [hz])) hz ov).length = mid.length + 1 ∧
    (segments ((0 : ℤ) :: (mid ++ [hz])) hz ov).getD i (0, 0) =
      (if i = 0 then ((0 : ℤ), min (mid.getD 0 hz + ov) hz)
       else if i = mid.length then (max (mid.getD (i - 1) 0 - ov) 0, hz)
       else (max (mid.getD (i - 1) 0 - ov) 0, min (mid.getD i 0 + ov) hz)) ∧
    (segment_parts img ((0 : ℤ) :: (mid ++ [hz])) hz ov).getD i defaultImage =
      cropRows img ((segments ((0 : ℤ) :: (mid ++ [hz])) hz ov).getD i (0, 0)).1
        ((segments ((0 : ℤ) :: (mid ++ [hz])) hz ov).getD i (0, 0)).2 ∧
    (∀ ys ye : ℤ, (cropRows img ys ye).width = img.width ∧
      (cropRows img ys ye).height = (ye - ys).toNat ∧
      ∀ x yy : ℕ, (cropRows img ys ye).pix x yy = img.pix x (ys.toNat + yy)) := by
  have hbl := genb_length mid hz
  refine ⟨by rw [segments_length, hbl]; omega, ?_,
    segment_parts_getD img _ hz ov i (by omega), fun ys ye => ⟨rfl, rfl, fun x yy => rfl⟩⟩
  rw [segments_getD _ _ _ i (by omega)]
  unfold segRange
  rw [hbl]
  by_cases h0 : i = 0
  · rw [if_pos h0, if_pos h0, genb_getD_one]
  · rw [if_neg h0, if_neg h0]
    by_cases hlst : i = mid.length + 2 - 2
    · have hl2 : i = mid.length := by omega
      rw [if_pos hlst, if_pos hl2]
      obtain ⟨j, rfl⟩ : ∃ j, i = j + 1 := ⟨i - 1, by omega⟩
      rw [genb_getD_succ mid hz j (by omega)]
      simp
    · have hl2 : ¬ i = mid.length := by omega
      rw [if_neg hlst, if_neg hl2]
      obtain ⟨j, rfl⟩ : ∃ j, i = j + 1 := ⟨i - 1, by omega⟩
      rw [genb_getD_succ mid hz j (by omega), genb_getD_succ mid hz (j + 1) (by omega)]
      simp

theorem segmenter_ranges_witness :
    (0 : ℤ) ≤ 10 ∧ 1 < 1 + 1 ∧
      (segments ((0 : ℤ) :: ([100] ++ [200])) 200 10).length = 1 + 1 :=
  ⟨by decide, by decide, (segmenter_ranges smallImg [100] 200 10 (by decide) 1 (by decide)).1⟩

/-- C7: for every image with height at most max_height the operation is a
no-op: the trace is just the load, with no resolves and no filesystem
steps, and the data result is none, which differs from every split result
(including a one-segment one). -/
theorem split_noop (img : Image) (h : (img.height : ℤ) ≤ defaultConfig.max_height) :
    split_run defaultConfig img = ([Step.loadImage], none) ∧
    (∀ e ∈ (split_run defaultConfig img).1, isFsStep e = false ∧ isResolveStep e = false) ∧
    split_long_image defaultConfig img = none ∧
    (∀ parts, split_long_image defaultConfig img ≠ some parts) := by
  have h1 : split_run defaultConfig img = ([Step.loadImage], none) := by
    unfold split_run
    rw [if_pos h]
  have h2 : split_long_image defaultConfig img = none := by
    unfold split_long_image
    rw [if_pos h]
  refine ⟨h1, ?_, h2, ?_⟩
  · intro e he
    rw [h1] at he
    have he2 : e = Step.loadImage := List.mem_singleton.mp he
    subst he2
    exact ⟨rfl, rfl⟩
  · intro parts hc
    rw [h2] at hc
    exact Option.noConfusion hc

theorem split_noop_witness :
    ((smallImg.height : ℤ) ≤ defaultConfig.max_height) ∧
      split_run defaultConfig smallImg = ([Step.loadImage], none) :=
  ⟨by decide, (split_noop smallImg (by decide)).1⟩

/-- C10: for every over-long image, the run trace splits into an analysis
prefix containing the load and one resolution per target row but no
filesystem step, followed by a filesystem-only suffix starting with the
directory creation; hence any truncation of the run during loading or
analysis has touched no file, so a failure there leaves the output
directory untouched. -/
theorem split_run_fs_after_resolve (img : Image)
    (h : defaultConfig.max_height < (img.height : ℤ)) :
    ∃ pre post : List Step,
      (split_run defaultConfig img).1 = pre ++ post ∧
      (split_run defaultConfig img).2 = none ∧
      (∀ e ∈ pre, isFsStep e = false) ∧
      (∀ e ∈ post, isFsStep e = true) ∧
      (∀ e ∈ post, isResolveStep e = false) ∧
      (pre.filter isResolveStep).length =
        (target_split_points defaultConfig img.height).length ∧
      post.headD Step.loadImage = Step.mkdirOutput ∧
      (∀ k, k ≤ pre.length → ∀ e ∈ (split_run defaultConfig img).1.take k,
        isFsStep e = false) := by
  have hrun : split_run defaultConfig img =
      (Step.loadImage ::
        (((target_split_points defaultConfig img.height).enum.map fun p =>
          Step.resolveSplit (p.1 + 1) p.2
            (find_safe_split_point img p.2 defaultConfig.search_range)) ++
        Step.mkdirOutput ::
          ((split_segments defaultConfig img).enum.map fun p =>
            Step.writePart (p.1 + 1) p.2)), none) := by
    unfold split_run
    rw [if_neg (by omega), if_neg (by decide)]
  refine ⟨Step.loadImage ::
      ((target_split_points defaultConfig img.height).enum.map fun p =>
        Step.resolveSplit (p.1 + 1) p.2
          (find_safe_split_point img p.2 defaultConfig.search_range)),
    Step.mkdirOutput ::
      ((split_segments defaultConfig img).enum.map fun p =>
        Step.writePart (p.1 + 1) p.2), ?_, ?_, ?_, ?_, ?_, ?_, ?_, ?_⟩
  · rw [hrun]
    simp
  · rw [hrun]
  · intro e he
    rcases List.mem_cons.mp he with rfl | he2
    · rfl
    · obtain ⟨p, _, rfl⟩ := List.mem_map.mp he2
      rfl
  · intro e he
    rcases List.mem_cons.mp he with rfl | he2
    · rfl
    · obtain ⟨p, _, rfl⟩ := List.mem_map.mp he2
      rfl
  · intro e he
    rcases List.mem_cons.mp he with rfl | he2
    · rfl
    · obtain ⟨p, _, rfl⟩ := List.mem_map.mp he2
      rfl
  · have hfl : (Step.loadImage ::
        ((target_split_points defaultConfig img.height).enum.map fun p =>
          Step.resolveSplit (p.1 + 1) p.2
            (find_safe_split_point img p.2 defaultConfig.search_range))).filter
          isResolveStep =
        ((target_split_points defaultConfig img.height).enum.map fun p =>
          Step.resolveSplit (p.1 + 1) p.2
            (find_safe_split_point img p.2 defaultConfig.search_range)) := by
      rw [List.filter_cons, if_neg (by decide)]
      apply List.filter_eq_self.mpr
      intro a ha
      obtain ⟨p, _, rfl⟩ := List.mem_map.mp ha
      rfl
    rw [hfl, List.length_map, List.enum_length]
  · rfl
  · intro k hk e he
    rw [hrun] at he
    rw [← List.cons_append, List.take_append_eq_append_take, Nat.sub_eq_zero_of_le hk,
      List.take_zero, List.append_nil] at he
    have he2 := List.take_subset k _ he
    rcases List.mem_cons.mp he2 with rfl | he3
    · rfl
    · obtain ⟨p, _, rfl⟩ := List.mem_map.mp he3
      rfl

theorem split_run_fs_after_resolve_witness :
    defaultConfig.max_height < (tallImg.height : ℤ) ∧
      (∃ pre post : List Step,
        (split_run defaultConfig tallImg).1 = pre ++ post ∧
        (split_run defaultConfig tallImg).2 = none ∧
        (∀ e ∈ pre, isFsStep e = false) ∧
        (∀ e ∈ post, isFsStep e = true) ∧
        (∀ e ∈ post, isResolveStep e = false) ∧
        (pre.filter isResolveStep).length =
          (target_split_points defaultConfig tallImg.height).length ∧
        post.headD Step.loadImage = Step.mkdirOutput ∧
        (∀ k, k ≤ pre.length → ∀ e ∈ (split_run defaultConfig tallImg).1.take k,
          isFsStep e = false)) :=
  ⟨by decide, split_run_fs_after_resolve tallImg (by decide)⟩

lemma n_splits_negConfig : n_splits negConfig 3600 = -3600 := by
  have hd : ((3600 : ℕ) : ℚ) / ((negConfig.split_height : ℤ) : ℚ) = ((-3600 : ℤ) : ℚ) := by
    norm_num [negConfig]
  unfold n_splits
  rw [hd]
  exact Int.ceil_intCast _

lemma targets_negConfig : target_split_points negConfig 3600 = [] := by
  unfold target_split_points
  rw [n_splits_negConfig]
  rfl

lemma acts_negConfig : actual_split_points negConfig cImage = [] := by
  unfold actual_split_points
  rw [show cImage.height = 3600 from rfl, targets_negConfig]
  rfl

lemma boundaries_negConfig : boundaries negConfig cImage = [0, 3600] := by
  unfold boundaries
  rw [acts_negConfig]
  rfl

lemma split_segments_negConfig : split_segments negConfig cImage = [(0, 3600)] := by
  unfold split_segments
  rw [boundaries_negConfig]
  decide

lemma split_run_negConfig :
    split_run negConfig cImage =
      ([Step.loadImage, Step.mkdirOutput, Step.writePart 1 (0, 3600)], none) := by
  unfold split_run
  rw [if_neg (by decide), if_neg (by decide)]
  rw [show cImage.height = 3600 from rfl, targets_negConfig, split_segments_negConfig]
  decide

lemma split_run_zeroConfig :
    split_run zeroConfig cImage = ([Step.loadImage], some "ZeroDivisionError") := by
  unfold split_run
  rw [if_neg (by decide), if_pos (by decide)]

/-- C8 (counterexample): an invocation whose SPLIT_HEIGHT constant is
edited to the non-positive value -1, run on a 3600-row image, is not
rejected before image work: the image is loaded, a part is written, and
the run ends with no error at all, so no configuration validation occurs. -/
theorem config_validation_counterexample :
    negConfig.split_height < 0 ∧
    (split_run negConfig cImage).2 = none ∧
    Step.loadImage ∈ (split_run negConfig cImage).1 ∧
    Step.writePart 1 (0, 3600) ∈ (split_run negConfig cImage).1 := by
  rw [split_run_negConfig]
  refine ⟨by decide, rfl, by decide, by decide⟩

/-- C8 (amended): the source performs no configuration validation at all;
its configuration is the four module constants, which as shipped always
satisfy the validity conditions (positive split and max heights,
nonnegative search range and overlap).  With SPLIT_HEIGHT edited to zero,
the run fails with a division error only after the image has been loaded,
and with a negative SPLIT_HEIGHT it does not fail at all: it writes the
whole image as a single part. -/
theorem config_constants_valid_no_validation :
    (0 < SPLIT_HEIGHT ∧ 0 < MAX_HEIGHT ∧ 0 ≤ SEARCH_RANGE ∧ 0 ≤ OVERLAP) ∧
    defaultConfig = ⟨MAX_HEIGHT, SPLIT_HEIGHT, SEARCH_RANGE, OVERLAP⟩ ∧
    split_run zeroConfig cImage = ([Step.loadImage], some "ZeroDivisionError") ∧
    (split_run negConfig cImage).2 = none ∧
    (split_run negConfig cImage).1 =
      [Step.loadImage, Step.mkdirOutput, Step.writePart 1 (0, 3600)] := by
  refine ⟨by decide, rfl, split_run_zeroConfig, ?_, ?_⟩ <;> rw [split_run_negConfig]

lemma rowLum_congr (a b : Image) (h : ImageEquiv a b) (y : ℕ) (hy : y < a.height) :
    rowLum a y = rowLum b y := by
  obtain ⟨hw, hh, hc, hp⟩ := h
  unfold rowLum
  rw [← hw]
  apply List.map_congr_left
  intro x hx
  rw [List.mem_range] at hx
  rw [hc, hp x hx y hy]

lemma rowRaw_congr (a b : Image) (h : ImageEquiv a b) (y : ℕ) (hy : y < a.height) :
    rowRaw a y = rowRaw b y := by
  obtain ⟨hw, hh, hc, hp⟩ := h
  unfold rowRaw
  rw [← hw]
  apply List.map_congr_left
  intro x hx
  rw [List.mem_range] at hx
  rw [hp x hx y hy]

lemma compute_edge_strength_congr (a b : Image) (h : ImageEquiv a b) (y : ℕ)
    (hy : y < a.height) : compute_edge_strength a y = compute_edge_strength b y := by
  have hc : a.channels = b.channels := h.2.2.1
  unfold compute_edge_strength
  rw [hc]
  by_cases hcc : 2 ≤ b.channels
  · rw [if_pos hcc, if_pos hcc, rowLum_congr a b h y hy]
  · rw [if_neg hcc, if_neg hcc, rowRaw_congr a b h y hy]

lemma edgeAt_congr (a b : Image) (h : ImageEquiv a b) (y : ℤ)
    (hy : y.toNat < a.height) : edgeAt a y = edgeAt b y := by
  unfold edgeAt
  rw [compute_edge_strength_congr a b h y.toNat hy]

lemma fssGo_congr (a b : Image) (h : ImageEquiv a b) (l : List ℤ) :
    ∀ m t, (∀ z ∈ l, z.toNat < a.height) → fssGo a l m t = fssGo b l m t := by
  induction l with
  | nil => intro m t _; cases m <;> rfl
  | cons y ys ih =>
    intro m t hz
    have hy : y.toNat < a.height := hz y (List.mem_cons_self y ys)
    have he := edgeAt_congr a b h y hy
    have hz' : ∀ z ∈ ys, z.toNat < a.height := fun z hzz =>
      hz z (List.mem_cons_of_mem y hzz)
    cases m with
    | none =>
      rw [show fssGo a (y :: ys) none t = fssGo a ys (some (edgeAt a y)) y from rfl,
        show fssGo b (y :: ys) none t = fssGo b ys (some (edgeAt b y)) y from rfl, he]
      exact ih _ _ hz'
    | some m =>
      rw [show fssGo a (y :: ys) (some m) t =
        (if edgeAt a y < m then fssGo a ys (some (edgeAt a y)) y
          else fssGo a ys (some m) t) from rfl,
        show fssGo b (y :: ys) (some m) t =
        (if edgeAt b y < m then fssGo b ys (some (edgeAt b y)) y
          else fssGo b ys (some m) t) from rfl, he]
      by_cases hlt : edgeAt b y < m
      · rw [if_pos hlt, if_pos hlt]
        exact ih _ _ hz'
      · rw [if_neg hlt, if_neg hlt]
        exact ih _ _ hz'

lemma find_safe_congr (a b : Image) (h : ImageEquiv a b) (t sr : ℤ) :
    find_safe_split_point a t sr = find_safe_split_point b t sr := by
  have hh : a.height = b.height := h.2.1
  unfold find_safe_split_point
  rw [show winEnd b t sr = winEnd a t sr by unfold winEnd; rw [hh]]
  apply fssGo_congr a b h
  intro z hzz
  obtain ⟨h1, h2⟩ := searchWindow_mem _ _ z hzz
  have h3 : (0 : ℤ) ≤ z := le_trans (le_max_left _ _) h1
  have h4 : z < (a.height : ℤ) := lt_of_lt_of_le h2 (min_le_left _ _)
  omega

lemma boundaries_congr (a b : Image) (h : ImageEquiv a b) :
    boundaries defaultConfig a = boundaries defaultConfig b := by
  have hh : a.height = b.height := h.2.1
  unfold boundaries actual_split_points
  rw [hh]
  have hm : (target_split_points defaultConfig b.height).map
      (fun t => find_safe_split_point a t defaultConfig.search_range) =
    (target_split_points defaultConfig b.height).map
      (fun t => find_safe_split_point b t defaultConfig.search_range) :=
    List.map_congr_left fun t _ => find_safe_congr a b h t _
  rw [hm]

lemma split_segments_congr (a b : Image) (h : ImageEquiv a b) :
    split_segments defaultConfig a = split_segments defaultConfig b := by
  have hh : a.height = b.height := h.2.1
  unfold split_segments
  rw [boundaries_congr a b h, hh]

lemma split_run_congr (a b : Image) (h : ImageEquiv a b) :
    split_run defaultConfig a = split_run defaultConfig b := by
  have hh : a.height = b.height := h.2.1
  unfold split_run
  rw [hh, split_segments_congr a b h]
  have hm : (target_split_points defaultConfig b.height).enum.map
      (fun p => Step.resolveSplit (p.1 + 1) p.2
        (find_safe_split_point a p.2 defaultConfig.search_range)) =
    (target_split_points defaultConfig b.height).enum.map
      (fun p => Step.resolveSplit (p.1 + 1) p.2
        (find_safe_split_point b p.2 defaultConfig.search_range)) :=
    List.map_congr_left fun p _ => by rw [find_safe_congr a b h p.2 _]
  rw [hm]

lemma output_parts_getD (cfg : Config) (img : Image) (j : ℕ)
    (hj : j < (split_segments cfg img).length) :
    (output_parts cfg img).getD j defaultImage =
      cropRows img ((split_segments cfg img).getD j (0, 0)).1
        ((split_segments cfg img).getD j (0, 0)).2 := by
  unfold output_parts
  rw [List.getD_eq_getElem _ _ (by simpa using hj), List.getElem_map,
    List.getD_eq_getElem _ _ hj]

/-- C9: two observably identical images with the same configuration yield
identical boundaries, identical segment regions, identical run traces, and
output parts with identical pixel content; the per-target searches read
only the immutable image, so repeated or reordered execution cannot change
the result. -/
theorem split_deterministic (a b : Image) (h : ImageEquiv a b) :
    boundaries defaultConfig a = boundaries defaultConfig b ∧
    split_segments defaultConfig a = split_segments defaultConfig b ∧
    split_run defaultConfig a = split_run defaultConfig b ∧
    (output_parts defaultConfig a).length = (output_parts defaultConfig b).length ∧
    (∀ j x y : ℕ, j < (output_parts defaultConfig a).length →
      x < ((output_parts defaultConfig a).getD j defaultImage).width →
      y < ((output_parts defaultConfig a).getD j defaultImage).height →
      ((output_parts defaultConfig a).getD j defaultImage).pix x y =
        ((output_parts defaultConfig b).getD j defaultImage).pix x y) := by
  have hseg := split_segments_congr a b h
  have hlen : (output_parts defaultConfig a).length =
      (output_parts defaultConfig b).length := by
    unfold output_parts
    rw [hseg, List.length_map, List.length_map]
  refine ⟨boundaries_congr a b h, hseg, split_run_congr a b h, hlen, ?_⟩
  intro j x y hj hx hy
  rw [show (output_parts defaultConfig a).length = (split_segments defaultConfig a).length
    from by unfold output_parts; rw [List.length_map]] at hj
  rw [output_parts_getD defaultConfig a j hj] at hx hy ⊢
  rw [output_parts_getD defaultConfig b j (by rw [← hseg]; exact hj), ← hseg]
  obtain ⟨hb1, hb2⟩ := split_seg_bounds a j hj
  simp only [cropRows] at hx hy ⊢
  exact h.2.2.2 x hx _ (by omega)

theorem split_deterministic_witness :
    ImageEquiv imgA imgB ∧ boundaries defaultConfig imgA = boundaries defaultConfig imgB :=
  ⟨⟨rfl, rfl, rfl, by decide⟩, (split_deterministic imgA imgB ⟨rfl, rfl, rfl, by decide⟩).1⟩
